import Mathlib

set_option maxHeartbeats 1000000

/-!
Verification of the ghost-scrub text cleaner.

Text is modelled as `List Char` (a decoded file content); `byteLen`
gives its UTF-8 byte length, matching the byte-counting `len()` used by
`count_changes` in `src/processor.rs`.  The cleaning pipeline
(`clean_content` and its seven rules), the extension filter
(`should_process_file` in `src/config.rs`), the per-file processor
(`process_file`) and the tree walker (`process_paths` and friends in
`src/walker.rs`) are embedded as pure functions.  File-system effects
(reading, writing, directory listing, glob expansion) are made explicit:
the processor passes the on-disk content in and out, and the walker is
parameterised by a `WalkEnv` describing what every path resolves to.
-/

/-- The Unicode `White_Space` property, as decided by `char::is_whitespace`
in the standard library of the source language (used by the `trim`,
`trim_end` and `is_whitespace` calls in `src/processor.rs`). -/
def isRustWhitespace (c : Char) : Bool :=
  let n := c.toNat
  (0x9 ≤ n && n ≤ 0xD) || n == 0x20 || n == 0x85 || n == 0xA0 || n == 0x1680 ||
  (0x2000 ≤ n && n ≤ 0x200A) || n == 0x2028 || n == 0x2029 || n == 0x202F ||
  n == 0x205F || n == 0x3000

/-- UTF-8 byte length of a text; `str::len` in the source counts bytes. -/
def byteLen (s : List Char) : Nat := (s.map Char.utf8Size).sum

/-- The four characters removed by `remove_zero_width_spaces`
(`src/processor.rs` line 101). -/
def zeroWidthTargets : List Char := ['\u200B', '\u200C', '\u200D', '\uFEFF']

/-- `remove_zero_width_spaces` (`src/processor.rs` lines 100-102):
`content.replace([ZWSP, ZWNJ, ZWJ, BOM], "")` deletes every occurrence of
the four zero-width characters. -/
def remove_zero_width_spaces (content : List Char) : List Char :=
  content.filter (fun c => !(zeroWidthTargets.contains c))

/-- `remove_non_breaking_spaces` (`src/processor.rs` lines 104-106):
`content.replace(NBSP, " ")` maps U+00A0 to a regular space. -/
def remove_non_breaking_spaces (content : List Char) : List Char :=
  content.map (fun c => if c = '\u00A0' then ' ' else c)

/-- The keep-predicate of `remove_control_characters`
(`src/processor.rs` lines 108-120). -/
def keepControl (c : Char) : Bool :=
  if c = '\n' || c = '\r' || c = '\t' then true
  else !(c.toNat ≤ 0x1F || c.toNat == 0x7F)

/-- `remove_control_characters` (`src/processor.rs` lines 108-120). -/
def remove_control_characters (content : List Char) : List Char :=
  content.filter keepControl

/-- The keep-predicate of `remove_unicode_whitespace`
(`src/processor.rs` lines 122-134). -/
def keepUnicodeWs (c : Char) : Bool :=
  if c = ' ' || c = '\n' || c = '\r' || c = '\t' then true
  else !(isRustWhitespace c)

/-- `remove_unicode_whitespace` (`src/processor.rs` lines 122-134). -/
def remove_unicode_whitespace (content : List Char) : List Char :=
  content.filter keepUnicodeWs

/-- `str::split_inclusive('\n')`: cut the text into chunks, each ending with
the separator `'\n'` except possibly the last; the empty text gives no
chunks. -/
def splitInclusiveNL : List Char → List (List Char)
  | [] => []
  | c :: cs =>
    if c = '\n' then ['\n'] :: splitInclusiveNL cs
    else
      match splitInclusiveNL cs with
      | [] => [[c]]
      | l :: ls => (c :: l) :: ls

/-- The per-chunk map of `str::lines`: strip one trailing `'\n'`, and if that
succeeded also one trailing `'\r'`. -/
def stripLineEnd (l : List Char) : List Char :=
  if l.getLast? = some '\n' then
    if l.dropLast.getLast? = some '\r' then l.dropLast.dropLast else l.dropLast
  else l

/-- `str::lines()` as used throughout `src/processor.rs`: split inclusively
on `'\n'` and strip each chunk's terminator (`\n`, or `\r\n`).  A final
chunk with no terminator is kept as is (including a bare trailing `\r`). -/
def rustLines (s : List Char) : List (List Char) :=
  (splitInclusiveNL s).map stripLineEnd

/-- `Vec::join("\n")`: rejoin lines with a single `'\n'` between them. -/
def joinNL : List (List Char) → List Char
  | [] => []
  | [l] => l
  | l :: l2 :: ls => l ++ '\n' :: joinNL (l2 :: ls)

/-- `str::trim_end()`: drop trailing Unicode whitespace. -/
def trimEnd (l : List Char) : List Char :=
  (l.reverse.dropWhile isRustWhitespace).reverse

/-- `line.trim().is_empty()`: a line trims to empty iff every character is
Unicode whitespace (true of the empty line as well). -/
def isWsOnly (l : List Char) : Bool := l.all isRustWhitespace

/-- `remove_trailing_whitespace` (`src/processor.rs` lines 136-142):
`content.lines().map(trim_end).collect().join("\n")`. -/
def remove_trailing_whitespace (content : List Char) : List Char :=
  joinNL ((rustLines content).map trimEnd)

/-- `remove_whitespace_only_lines` (`src/processor.rs` lines 144-157):
replace each line whose trimmed content is empty by the empty line, then
rejoin with `'\n'`. -/
def remove_whitespace_only_lines (content : List Char) : List Char :=
  joinNL ((rustLines content).map (fun l => if isWsOnly l then [] else l))

/-- `str::trim_start_matches("U+")`: drop every leading occurrence of the
two-character prefix `U+`. -/
def stripLeadingU : List Char → List Char
  | 'U' :: '+' :: rest => stripLeadingU rest
  | l => l

/-- Value of one hexadecimal digit (`0`-`9`, `a`-`f`, `A`-`F`). -/
def hexDigitVal (c : Char) : Option Nat :=
  let n := c.toNat
  if 0x30 ≤ n ∧ n ≤ 0x39 then some (n - 0x30)
  else if 0x61 ≤ n ∧ n ≤ 0x66 then some (n - 0x57)
  else if 0x41 ≤ n ∧ n ≤ 0x46 then some (n - 0x37)
  else none

/-- Accumulate hexadecimal digits; any non-digit fails the parse. -/
def parseHexDigits : List Char → Nat → Option Nat
  | [], acc => some acc
  | c :: cs, acc =>
    match hexDigitVal c with
    | some v => parseHexDigits cs (acc * 16 + v)
    | none => none

/-- `u32::from_str_radix(src, 16)`: an optional sign followed by at least
one hex digit; the value must fit in 32 bits, and a negative value is only
accepted when it is zero. -/
def fromStrRadix16 (src : List Char) : Option Nat :=
  match src with
  | [] => none
  | '+' :: rest =>
    match rest with
    | [] => none
    | _ => (parseHexDigits rest 0).bind fun v =>
        if v ≤ 0xFFFFFFFF then some v else none
  | '-' :: rest =>
    match rest with
    | [] => none
    | _ => (parseHexDigits rest 0).bind fun v =>
        if v = 0 then some 0 else none
  | _ => (parseHexDigits src 0).bind fun v =>
      if v ≤ 0xFFFFFFFF then some v else none

/-- `char::from_u32`: valid Unicode scalar values only. -/
def charFromU32 (n : Nat) : Option Char :=
  if n < 0xD800 ∨ (0xE000 ≤ n ∧ n < 0x110000) then
    some (Char.ofNat n)
  else none

/-- Parsing of one configured custom character
(`src/processor.rs` lines 85-91): strip the `U+` prefix, parse as a
hexadecimal 32-bit value, convert to a character; any failure means the
entry is silently skipped. -/
def parseCustomChar (entry : List Char) : Option Char :=
  (fromStrRadix16 (stripLeadingU entry)).bind charFromU32

/-- The custom-character loop of `clean_content`
(`src/processor.rs` lines 85-92): for each entry that parses, delete all
occurrences of the character (`result.replace(ch, "")`). -/
def applyCustomChars (customs : List (List Char)) (content : List Char) :
    List Char :=
  customs.foldl
    (fun acc entry =>
      match parseCustomChar entry with
      | some ch => acc.filter (fun c => !(c == ch))
      | none => acc)
    content

/-- `TargetCharacters` (`src/config.rs` lines 26-45). -/
structure TargetCharacters where
  zero_width_spaces : Bool
  non_breaking_spaces : Bool
  control_characters : Bool
  unicode_whitespace : Bool
  trailing_whitespace : Bool
  custom_chars : List (List Char)
deriving DecidableEq

/-- `clean_content` (`src/processor.rs` lines 62-98): the ordered rule
pipeline, ending with the unconditional whitespace-only-line pass. -/
def clean_content (cfg : TargetCharacters) (content : List Char) : List Char :=
  let r := content
  let r := if cfg.zero_width_spaces then remove_zero_width_spaces r else r
  let r := if cfg.non_breaking_spaces then remove_non_breaking_spaces r else r
  let r := if cfg.control_characters then remove_control_characters r else r
  let r := if cfg.unicode_whitespace then remove_unicode_whitespace r else r
  let r := if cfg.trailing_whitespace then remove_trailing_whitespace r else r
  let r := applyCustomChars cfg.custom_chars r
  remove_whitespace_only_lines r

/-- `count_changes` (`src/processor.rs` lines 260-262):
`original.len() - cleaned.len()`, a byte-length delta. -/
def count_changes (original cleaned : List Char) : Nat :=
  byteLen original - byteLen cleaned

/-- `VerbosityLevel` (`src/config.rs` lines 47-53). -/
inductive VerbosityLevel where
  | Silent
  | Normal
  | Verbose
deriving DecidableEq

/-- `GhostScrubConfig` (`src/config.rs` lines 5-24). -/
structure GhostScrubConfig where
  include_extensions : List String
  exclude_extensions : List String
  include_patterns : List String
  exclude_patterns : List String
  target_characters : TargetCharacters
  verbosity : VerbosityLevel

/-- `should_process_file` (`src/config.rs` lines 194-210), expressed over
the extension the path resolves to (`Path::extension` is standard-library
behaviour; `none` is an extensionless path). -/
def should_process_file (cfg : GhostScrubConfig) (extension : Option String) :
    Bool :=
  match extension with
  | some ext =>
    if !cfg.exclude_extensions.isEmpty && cfg.exclude_extensions.contains ext
    then false
    else if !cfg.include_extensions.isEmpty
        && !(cfg.include_extensions.contains ext)
    then false
    else true
  | none => true

/-- `ProcessResult` (`src/processor.rs` lines 265-271). -/
inductive ProcessResult where
  | Cleaned (count : Nat)
  | DryRun (count : Nat)
  | NoChanges
  | Skipped
deriving DecidableEq

/-- `process_file` (`src/processor.rs` lines 14-60), with file I/O made
explicit: `disk` is the file's decoded content (`none` when
`fs::read_to_string` fails) and the returned `Option (List Char)` is the
content on disk after the call.  Printing is omitted; it does not affect
the result or the file. -/
def process_file (cfg : GhostScrubConfig) (extension : Option String)
    (disk : Option (List Char)) (dry_run _verbose : Bool) :
    Except Unit (ProcessResult × Option (List Char)) :=
  if !(should_process_file cfg extension) then .ok (.Skipped, disk)
  else
    match disk with
    | none => .error ()
    | some content =>
      let cleaned := clean_content cfg.target_characters content
      if content = cleaned then .ok (.NoChanges, disk)
      else
        let changes_count := count_changes content cleaned
        if dry_run then .ok (.DryRun changes_count, disk)
        else .ok (.Cleaned changes_count, some cleaned)

/-- `WalkResult` (`src/walker.rs` lines 121-127). -/
structure WalkResult where
  files_processed : Nat
  files_skipped : Nat
  total_changes : Nat
  errors : Nat
deriving DecidableEq

/-- The all-zero `WalkResult::default()`. -/
def WalkResult.dflt : WalkResult := ⟨0, 0, 0, 0⟩

/-- The walker's view of the outside world: what each path resolves to,
directory listings, glob expansion, the processor's outcome on one file,
and glob-pattern compilation.  `read_dir` and `glob_fn` return
`Except Unit` for the fallible call itself and `Except Unit String` for
each yielded entry, matching the two error layers in `src/walker.rs`. -/
structure WalkEnv where
  is_file : String → Bool
  is_dir : String → Bool
  read_dir : String → Except Unit (List (Except Unit String))
  glob_fn : String → Except Unit (List (Except Unit String))
  run_processor : String → Bool → Bool → Except Unit ProcessResult
  compile_pattern : String → Option (String → Bool)

/-- `should_skip_path` (`src/walker.rs` lines 105-118): a path is skipped
when some exclude pattern compiles and matches it; patterns that fail to
compile are ignored. -/
def should_skip_path (env : WalkEnv) (cfg : GhostScrubConfig) (path : String) :
    Bool :=
  cfg.exclude_patterns.any fun pat =>
    match env.compile_pattern pat with
    | some matches_fn => matches_fn path
    | none => false

/-- `process_single_file` (`src/walker.rs` lines 35-57): fold the
processor's outcome into the accumulator; a processor error is logged,
counted in `errors`, and never propagated. -/
def process_single_file (env : WalkEnv) (path : String)
    (dry_run verbose : Bool) (result : WalkResult) : WalkResult :=
  match env.run_processor path dry_run verbose with
  | .ok (.Cleaned count) =>
    { result with files_processed := result.files_processed + 1,
                  total_changes := result.total_changes + count }
  | .ok (.DryRun count) =>
    { result with files_processed := result.files_processed + 1,
                  total_changes := result.total_changes + count }
  | .ok .NoChanges =>
    { result with files_processed := result.files_processed + 1 }
  | .ok .Skipped =>
    { result with files_skipped := result.files_skipped + 1 }
  | .error _ =>
    { result with errors := result.errors + 1 }

/-- `walk_directory_recursive` (`src/walker.rs` lines 64-84): `read_dir`
and per-entry failures propagate (the `?` operator).  `fuel` bounds the
recursion depth of the embedding; every run over a finite directory tree
has a sufficient fuel. -/
def walk_directory_recursive (env : WalkEnv) (cfg : GhostScrubConfig) :
    Nat → String → Bool → Bool → WalkResult → Except Unit WalkResult
  | 0, _, _, _, _ => .error ()
  | fuel + 1, dir_path, dry_run, verbose, result =>
    match env.read_dir dir_path with
    | .error e => .error e
    | .ok entries =>
      entries.foldlM
        (fun r entry =>
          match entry with
          | .error e => .error e
          | .ok path =>
            if env.is_dir path then
              if should_skip_path env cfg path then pure r
              else walk_directory_recursive env cfg fuel path dry_run verbose r
            else if env.is_file path then
              if !(should_skip_path env cfg path) then
                pure (process_single_file env path dry_run verbose r)
              else pure r
            else pure r)
        result

/-- `process_glob_pattern` (`src/walker.rs` lines 86-103): a failure of
`glob(pattern)` itself propagates through `?`; a failed entry of the
expansion increments `errors` and the loop continues. -/
def process_glob_pattern (env : WalkEnv) (cfg : GhostScrubConfig)
    (fuel : Nat) (pattern : String) (dry_run verbose : Bool)
    (result : WalkResult) : Except Unit WalkResult :=
  match env.glob_fn pattern with
  | .error e => .error e
  | .ok entries =>
    entries.foldlM
      (fun r entry =>
        match entry with
        | .ok path =>
          if env.is_file path then
            pure (process_single_file env path dry_run verbose r)
          else if env.is_dir path then
            walk_directory_recursive env cfg fuel path dry_run verbose r
          else pure r
        | .error _ => pure { r with errors := r.errors + 1 })
      result

/-- `process_paths` (`src/walker.rs` lines 18-33): each input path is a
file, a directory, or is treated as a glob pattern; failures of the three
handlers propagate out (the `?` operator on each call). -/
def process_paths (env : WalkEnv) (cfg : GhostScrubConfig) (fuel : Nat)
    (paths : List String) (dry_run verbose : Bool) :
    Except Unit WalkResult :=
  paths.foldlM
    (fun result path =>
      if env.is_file path then
        pure (process_single_file env path dry_run verbose result)
      else if env.is_dir path then
        walk_directory_recursive env cfg fuel path dry_run verbose result
      else
        process_glob_pattern env cfg fuel path dry_run verbose result)
    WalkResult.dflt

/-! ### Basic facts about the line-splitting primitives -/

theorem contains_true_iff (l : List Char) (a : Char) :
    l.contains a = true ↔ a ∈ l := List.elem_iff

theorem mem_of_getLast?_eq (l : List Char) (a : Char)
    (h : l.getLast? = some a) : a ∈ l := by
  obtain ⟨ys, rfl⟩ := List.getLast?_eq_some_iff.mp h
  exact List.mem_append_right _ (List.mem_singleton_self a)

theorem splitInclusiveNL_cons_ne (c : Char) (cs : List Char) :
    splitInclusiveNL (c :: cs) ≠ [] := by
  unfold splitInclusiveNL
  split
  · exact List.cons_ne_nil _ _
  · split
    · exact List.cons_ne_nil _ _
    · exact List.cons_ne_nil _ _

theorem splitInclusiveNL_eq_nil_iff (s : List Char) :
    splitInclusiveNL s = [] ↔ s = [] := by
  cases s with
  | nil => simp [splitInclusiveNL]
  | cons c cs =>
    simp only [iff_false, List.cons_ne_nil]
    exact fun h => splitInclusiveNL_cons_ne c cs h

theorem flatten_splitInclusiveNL (s : List Char) :
    (splitInclusiveNL s).flatten = s := by
  induction s with
  | nil => rfl
  | cons c cs ih =>
    unfold splitInclusiveNL
    by_cases hc : c = '\n'
    · subst hc
      simp [List.flatten_cons, ih]
    · rw [if_neg hc]
      cases h : splitInclusiveNL cs with
      | nil =>
        have hcs : cs = [] := (splitInclusiveNL_eq_nil_iff cs).mp h
        subst hcs
        simp
      | cons l ls =>
        rw [h] at ih
        simp only [List.flatten_cons] at ih ⊢
        rw [List.cons_append, ih]

theorem splitInclusiveNL_chunk_ne_nil (s : List Char) :
    ∀ l ∈ splitInclusiveNL s, l ≠ [] := by
  induction s with
  | nil => simp [splitInclusiveNL]
  | cons c cs ih =>
    unfold splitInclusiveNL
    by_cases hc : c = '\n'
    · subst hc
      rw [if_pos rfl]
      intro l hl
      cases hl with
      | head => exact List.cons_ne_nil _ _
      | tail _ h2 => exact ih l h2
    · rw [if_neg hc]
      cases h : splitInclusiveNL cs with
      | nil =>
        simp
      | cons m ms =>
        intro l hl
        cases hl with
        | head => exact List.cons_ne_nil _ _
        | tail _ h2 => exact ih l (h ▸ List.mem_cons_of_mem m h2)

theorem splitInclusiveNL_chunk_interior (s : List Char) :
    ∀ l ∈ splitInclusiveNL s, '\n' ∉ l.dropLast := by
  induction s with
  | nil => simp [splitInclusiveNL]
  | cons c cs ih =>
    unfold splitInclusiveNL
    by_cases hc : c = '\n'
    · subst hc
      rw [if_pos rfl]
      intro l hl
      cases hl with
      | head => simp
      | tail _ h2 => exact ih l h2
    · rw [if_neg hc]
      cases h : splitInclusiveNL cs with
      | nil =>
        simp
      | cons m ms =>
        intro l hl
        cases hl with
        | head =>
          have hm : m ≠ [] :=
            splitInclusiveNL_chunk_ne_nil cs m (h ▸ List.mem_cons_self m ms)
          obtain ⟨x, xs, hxs⟩ := List.exists_cons_of_ne_nil hm
          rw [hxs, List.dropLast_cons₂]
          intro hmem
          rcases List.mem_cons.mp hmem with h1 | h2
          · exact hc h1.symm
          · have := ih _ (h ▸ List.mem_cons_self _ ms)
            rw [hxs] at this
            exact this h2
        | tail _ h2 => exact ih l (h ▸ List.mem_cons_of_mem m h2)

/-- Every chunk except the last ends with the separator. -/
def nonLastNL : List (List Char) → Prop
  | [] => True
  | [_] => True
  | l :: l2 :: ls => l.getLast? = some '\n' ∧ nonLastNL (l2 :: ls)

theorem splitInclusiveNL_nonLast (s : List Char) :
    nonLastNL (splitInclusiveNL s) := by
  induction s with
  | nil => trivial
  | cons c cs ih =>
    unfold splitInclusiveNL
    by_cases hc : c = '\n'
    · subst hc
      rw [if_pos rfl]
      cases h : splitInclusiveNL cs with
      | nil => trivial
      | cons m ms =>
        rw [h] at ih
        exact ⟨rfl, ih⟩
    · rw [if_neg hc]
      cases h : splitInclusiveNL cs with
      | nil => trivial
      | cons m ms =>
        rw [h] at ih
        cases ms with
        | nil => trivial
        | cons m2 ms2 =>
          obtain ⟨hm, hrest⟩ := ih
          have hm_ne : m ≠ [] :=
            splitInclusiveNL_chunk_ne_nil cs m (h ▸ List.mem_cons_self m _)
          obtain ⟨x, xs, hxs⟩ := List.exists_cons_of_ne_nil hm_ne
          subst hxs
          exact ⟨by rw [List.getLast?_cons_cons]; exact hm, hrest⟩

theorem mem_stripLineEnd (l : List Char) (a : Char)
    (h : a ∈ stripLineEnd l) : a ∈ l := by
  unfold stripLineEnd at h
  split at h
  · split at h
    · exact List.mem_of_mem_dropLast (List.mem_of_mem_dropLast h)
    · exact List.mem_of_mem_dropLast h
  · exact h

theorem stripLineEnd_of_not_nl (l : List Char)
    (h : l.getLast? ≠ some '\n') : stripLineEnd l = l := by
  unfold stripLineEnd
  rw [if_neg h]

theorem nl_not_mem_stripLineEnd (l : List Char)
    (h : '\n' ∉ l.dropLast) : '\n' ∉ stripLineEnd l := by
  unfold stripLineEnd
  split
  · split
    · exact fun hm => h (List.mem_of_mem_dropLast hm)
    · exact h
  · rename_i hlast
    intro hm
    cases hl : l.getLast? with
    | none =>
      rw [List.getLast?_eq_none_iff] at hl
      subst hl
      simp at hm
    | some b =>
      obtain ⟨ys, rfl⟩ := List.getLast?_eq_some_iff.mp hl
      rcases List.mem_append.mp hm with h1 | h2
      · rw [List.dropLast_concat] at h
        exact h h1
      · rcases List.mem_singleton.mp h2 with rfl
        exact hlast hl

theorem nl_not_mem_rustLines (s : List Char) :
    ∀ l ∈ rustLines s, '\n' ∉ l := by
  intro l hl
  obtain ⟨chunk, hchunk, rfl⟩ := List.mem_map.mp hl
  exact nl_not_mem_stripLineEnd chunk
    (splitInclusiveNL_chunk_interior s chunk hchunk)

theorem mem_of_mem_rustLines (s : List Char) (l : List Char) (a : Char)
    (hl : l ∈ rustLines s) (ha : a ∈ l) : a ∈ s := by
  obtain ⟨chunk, hchunk, rfl⟩ := List.mem_map.mp hl
  have h1 : a ∈ chunk := mem_stripLineEnd chunk a ha
  have h2 : a ∈ (splitInclusiveNL s).flatten :=
    List.mem_flatten.mpr ⟨chunk, hchunk, h1⟩
  rwa [flatten_splitInclusiveNL] at h2

theorem rustLines_eq_nil_iff (s : List Char) :
    rustLines s = [] ↔ s = [] := by
  unfold rustLines
  rw [List.map_eq_nil_iff]
  exact splitInclusiveNL_eq_nil_iff s

/-! ### Rejoining lines -/

theorem splitInclusiveNL_nl_cons (cs : List Char) :
    splitInclusiveNL ('\n' :: cs) = ['\n'] :: splitInclusiveNL cs := by
  simp [splitInclusiveNL]

theorem splitInclusiveNL_cons_nil (c : Char) (cs : List Char)
    (hc : c ≠ '\n') (h : splitInclusiveNL cs = []) :
    splitInclusiveNL (c :: cs) = [[c]] := by
  unfold splitInclusiveNL
  rw [if_neg hc, h]

theorem splitInclusiveNL_cons_cons (c : Char) (cs : List Char)
    (m : List Char) (ms : List (List Char))
    (hc : c ≠ '\n') (h : splitInclusiveNL cs = m :: ms) :
    splitInclusiveNL (c :: cs) = (c :: m) :: ms := by
  unfold splitInclusiveNL
  rw [if_neg hc, h]

theorem getLast?_cons_of_ne_nil (c : Char) (cs : List Char) (h : cs ≠ []) :
    (c :: cs).getLast? = cs.getLast? := by
  obtain ⟨x, xs, hxs⟩ := List.exists_cons_of_ne_nil h
  subst hxs
  exact List.getLast?_cons_cons

theorem joinNL_cons_cons (l l2 : List Char) (ls : List (List Char)) :
    joinNL (l :: l2 :: ls) = l ++ '\n' :: joinNL (l2 :: ls) := rfl

theorem joinNL_cons_head (c : Char) (l : List Char) (M : List (List Char)) :
    joinNL ((c :: l) :: M) = c :: joinNL (l :: M) := by
  cases M with
  | nil => rfl
  | cons m ms => rfl

theorem mem_joinNL (M : List (List Char)) (a : Char) (h : a ∈ joinNL M) :
    a = '\n' ∨ ∃ l ∈ M, a ∈ l := by
  induction M with
  | nil => simp [joinNL] at h
  | cons l rest ih =>
    cases rest with
    | nil =>
      right
      exact ⟨l, List.mem_cons_self l [], h⟩
    | cons l2 ls =>
      rw [joinNL_cons_cons] at h
      rcases List.mem_append.mp h with h1 | h2
      · right
        exact ⟨l, List.mem_cons_self l _, h1⟩
      · rcases List.mem_cons.mp h2 with h3 | h4
        · left
          exact h3
        · rcases ih h4 with h5 | ⟨m, hm, ha⟩
          · left
            exact h5
          · right
            exact ⟨m, List.mem_cons_of_mem l hm, ha⟩

theorem stripLineEnd_cons (c : Char) (l : List Char) (hl : l ≠ [])
    (hr : '\r' ∉ c :: l) : stripLineEnd (c :: l) = c :: stripLineEnd l := by
  obtain ⟨x, xs, hxs⟩ := List.exists_cons_of_ne_nil hl
  subst hxs
  unfold stripLineEnd
  rw [List.getLast?_cons_cons]
  by_cases h1 : (x :: xs).getLast? = some '\n'
  · rw [if_pos h1, if_pos h1, List.dropLast_cons₂]
    by_cases h2 : ((x :: xs).dropLast).getLast? = some '\r'
    · exfalso
      apply hr
      exact List.mem_cons_of_mem c
        (List.mem_of_mem_dropLast (mem_of_getLast?_eq _ _ h2))
    · have h2' : (c :: (x :: xs).dropLast).getLast? ≠ some '\r' := by
        cases hdl : (x :: xs).dropLast with
        | nil =>
          intro hcr
          have hc : c = '\r' := by simpa using hcr
          exact hr (hc ▸ List.mem_cons_self c (x :: xs))
        | cons y ys =>
          rw [hdl] at h2
          rw [List.getLast?_cons_cons]
          exact h2
      rw [if_neg h2', if_neg h2]
  · rw [if_neg h1, if_neg h1]

theorem join_rustLines (s : List Char) (hr : '\r' ∉ s)
    (hnl : s.getLast? ≠ some '\n') : joinNL (rustLines s) = s := by
  induction s with
  | nil => rfl
  | cons c cs ih =>
    by_cases hc : c = '\n'
    · subst hc
      have hcs : cs ≠ [] := by
        rintro rfl
        exact hnl rfl
      have hr' : '\r' ∉ cs := fun h => hr (List.mem_cons_of_mem _ h)
      have hnl' : cs.getLast? ≠ some '\n' := by
        rwa [getLast?_cons_of_ne_nil '\n' cs hcs] at hnl
      have hlines : rustLines ('\n' :: cs) = [] :: rustLines cs := by
        unfold rustLines
        rw [splitInclusiveNL_nl_cons, List.map_cons]
        rfl
      have hne : rustLines cs ≠ [] := by
        rw [Ne, rustLines_eq_nil_iff]
        exact hcs
      obtain ⟨m, ms, hm⟩ := List.exists_cons_of_ne_nil hne
      rw [hlines, hm, joinNL_cons_cons, List.nil_append, ← hm, ih hr' hnl']
    · cases hsp : splitInclusiveNL cs with
      | nil =>
        have hcs : cs = [] := (splitInclusiveNL_eq_nil_iff cs).mp hsp
        subst hcs
        have h1 : splitInclusiveNL [c] = [[c]] :=
          splitInclusiveNL_cons_nil c [] hc rfl
        unfold rustLines
        rw [h1, List.map_cons]
        have h2 : stripLineEnd [c] = [c] := by
          apply stripLineEnd_of_not_nl
          simp only [List.getLast?_singleton]
          intro h3
          exact hc (Option.some_injective _ h3)
        rw [h2]
        rfl
      | cons m ms =>
        have hcs : cs ≠ [] := by
          intro h0
          rw [h0] at hsp
          simp [splitInclusiveNL] at hsp
        have hr' : '\r' ∉ cs := fun h => hr (List.mem_cons_of_mem _ h)
        have hnl' : cs.getLast? ≠ some '\n' := by
          rwa [getLast?_cons_of_ne_nil c cs hcs] at hnl
        have hm_ne : m ≠ [] :=
          splitInclusiveNL_chunk_ne_nil cs m (hsp ▸ List.mem_cons_self m ms)
        have hr_cm : '\r' ∉ c :: m := by
          intro hmem
          rcases List.mem_cons.mp hmem with h1 | h2
          · exact hr (h1 ▸ List.mem_cons_self c cs)
          · have h3 : '\r' ∈ (splitInclusiveNL cs).flatten :=
              List.mem_flatten.mpr ⟨m, hsp ▸ List.mem_cons_self m ms, h2⟩
            rw [flatten_splitInclusiveNL] at h3
            exact hr (List.mem_cons_of_mem c h3)
        have hstrip := stripLineEnd_cons c m hm_ne hr_cm
        have hlines : rustLines (c :: cs) =
            (c :: stripLineEnd m) :: List.map stripLineEnd ms := by
          unfold rustLines
          rw [splitInclusiveNL_cons_cons c cs m ms hc hsp, List.map_cons,
            hstrip]
        have hlines_cs : rustLines cs =
            stripLineEnd m :: List.map stripLineEnd ms := by
          unfold rustLines
          rw [hsp, List.map_cons]
        rw [hlines, joinNL_cons_head, ← hlines_cs, ih hr' hnl']

/-! ### Counting newlines through the line passes -/

/-- One extra line beyond the newline count, except when the text is empty
or ends with a newline (the optional final terminator of `lines`). -/
def nlExtra (s : List Char) : Nat :=
  if s.getLast? = some '\n' ∨ s = [] then 0 else 1

theorem nlExtra_le_one (s : List Char) : nlExtra s ≤ 1 := by
  unfold nlExtra
  split
  · exact Nat.zero_le 1
  · exact Nat.le_refl 1

theorem nlExtra_of_ends_nl (s : List Char) (h : s.getLast? = some '\n') :
    nlExtra s = 0 := by
  unfold nlExtra
  rw [if_pos (Or.inl h)]

theorem rustLines_length (s : List Char) :
    (rustLines s).length = List.count '\n' s + nlExtra s := by
  induction s with
  | nil => simp [rustLines, splitInclusiveNL, nlExtra]
  | cons c cs ih =>
    by_cases hc : c = '\n'
    · subst hc
      have h1 : rustLines ('\n' :: cs) = [] :: rustLines cs := by
        unfold rustLines
        rw [splitInclusiveNL_nl_cons, List.map_cons]
        rfl
      have h2 : nlExtra ('\n' :: cs) = nlExtra cs := by
        cases cs with
        | nil => simp [nlExtra]
        | cons d ds => simp [nlExtra, List.getLast?_cons_cons]
      rw [h1, List.length_cons, ih, List.count_cons_self, h2]
      omega
    · cases hsp : splitInclusiveNL cs with
      | nil =>
        have hcs : cs = [] := (splitInclusiveNL_eq_nil_iff cs).mp hsp
        subst hcs
        have h1 : rustLines [c] = [[c]] := by
          unfold rustLines
          rw [splitInclusiveNL_cons_nil c [] hc rfl, List.map_cons]
          have h2 : stripLineEnd [c] = [c] := by
            apply stripLineEnd_of_not_nl
            simp only [List.getLast?_singleton]
            intro h3
            exact hc (Option.some_injective _ h3)
          rw [h2]
          rfl
        rw [h1]
        have h3 : List.count '\n' [c] = 0 := by
          rw [List.count_eq_zero]
          intro hmem
          exact hc (List.mem_singleton.mp hmem).symm
        rw [h3]
        simp [nlExtra, hc]
      | cons m ms =>
        have hcs : cs ≠ [] := by
          intro h0
          rw [h0] at hsp
          simp [splitInclusiveNL] at hsp
        have h1 : rustLines (c :: cs) =
            stripLineEnd (c :: m) :: List.map stripLineEnd ms := by
          unfold rustLines
          rw [splitInclusiveNL_cons_cons c cs m ms hc hsp, List.map_cons]
        have h2 : rustLines cs = stripLineEnd m :: List.map stripLineEnd ms := by
          unfold rustLines
          rw [hsp, List.map_cons]
        have h3 : List.count '\n' (c :: cs) = List.count '\n' cs :=
          List.count_cons_of_ne (Ne.symm hc) cs
        have h4 : nlExtra (c :: cs) = nlExtra cs := by
          unfold nlExtra
          rw [getLast?_cons_of_ne_nil c cs hcs]
          simp [hcs]
        have h5 : (rustLines (c :: cs)).length = (rustLines cs).length := by
          rw [h1, h2]
          simp
        rw [h5, ih, h3, h4]

theorem count_nl_joinNL (M : List (List Char)) (h : ∀ l ∈ M, '\n' ∉ l) :
    List.count '\n' (joinNL M) = M.length - 1 := by
  induction M with
  | nil => simp [joinNL]
  | cons l rest ih =>
    cases rest with
    | nil =>
      show List.count '\n' l = 1 - 1
      rw [List.count_eq_zero.mpr (h l (List.mem_cons_self l []))]
    | cons l2 ls =>
      rw [joinNL_cons_cons, List.count_append,
        List.count_eq_zero.mpr (h l (List.mem_cons_self l _)),
        List.count_cons_self,
        ih (fun m hm => h m (List.mem_cons_of_mem l hm))]
      simp only [List.length_cons]
      omega

theorem mem_trimEnd (l : List Char) (a : Char) (h : a ∈ trimEnd l) : a ∈ l := by
  unfold trimEnd at h
  rw [List.mem_reverse] at h
  have h2 : a ∈ l.reverse := (List.dropWhile_sublist _).subset h
  rwa [List.mem_reverse] at h2

theorem nl_not_mem_map_line (s : List Char) (g : List Char → List Char)
    (hg : ∀ l a, a ∈ g l → a ∈ l) :
    ∀ l ∈ (rustLines s).map g, '\n' ∉ l := by
  intro l hl
  obtain ⟨m, hm, hml⟩ := List.mem_map.mp hl
  intro ha
  rw [← hml] at ha
  exact nl_not_mem_rustLines s m hm (hg m '\n' ha)

theorem count_nl_lineMap (g : List Char → List Char)
    (hg : ∀ l a, a ∈ g l → a ∈ l) (s : List Char) :
    List.count '\n' (joinNL ((rustLines s).map g)) =
      List.count '\n' s + nlExtra s - 1 := by
  rw [count_nl_joinNL _ (nl_not_mem_map_line s g hg), List.length_map,
    rustLines_length]

/-! ### Per-rule facts: removal, preservation, fixed points -/

theorem joinNL_singleton (l : List Char) : joinNL [l] = l := rfl

theorem zw_scrubbed (s : List Char) (c : Char) (hc : c ∈ zeroWidthTargets) :
    c ∉ remove_zero_width_spaces s := by
  intro h
  have h2 := (List.mem_filter.mp h).2
  rw [(contains_true_iff zeroWidthTargets c).mpr hc] at h2
  simp at h2

theorem zw_fix (s : List Char) (h : ∀ c ∈ zeroWidthTargets, c ∉ s) :
    remove_zero_width_spaces s = s := by
  unfold remove_zero_width_spaces
  rw [List.filter_eq_self]
  intro a ha
  cases hct : zeroWidthTargets.contains a
  · simp
  · exact absurd ha (h a ((contains_true_iff _ _).mp hct))

theorem mem_remove_nbsp (s : List Char) (a : Char)
    (h : a ∈ remove_non_breaking_spaces s) : a ∈ s ∨ a = ' ' := by
  unfold remove_non_breaking_spaces at h
  obtain ⟨b, hb, hba⟩ := List.mem_map.mp h
  by_cases hbn : b = '\u00A0'
  · right
    rw [← hba, if_pos hbn]
  · left
    rw [← hba, if_neg hbn]
    exact hb

theorem nbsp_scrubbed (s : List Char) : '\u00A0' ∉ remove_non_breaking_spaces s := by
  intro h
  unfold remove_non_breaking_spaces at h
  obtain ⟨b, _, hba⟩ := List.mem_map.mp h
  by_cases hbn : b = '\u00A0'
  · rw [if_pos hbn] at hba
    exact absurd hba (by decide)
  · rw [if_neg hbn] at hba
    exact hbn hba

theorem nbsp_fix (s : List Char) (h : '\u00A0' ∉ s) :
    remove_non_breaking_spaces s = s := by
  unfold remove_non_breaking_spaces
  have h1 : ∀ a ∈ s, (if a = '\u00A0' then ' ' else a) = id a := by
    intro a ha
    rw [if_neg]
    · rfl
    · intro he
      rw [he] at ha
      exact h ha
  rw [List.map_congr_left h1, List.map_id]

theorem ctrl_scrubbed (s : List Char) (c : Char) (hc : keepControl c = false) :
    c ∉ remove_control_characters s := by
  intro h
  have h2 := (List.mem_filter.mp h).2
  rw [hc] at h2
  exact Bool.false_ne_true h2

theorem ctrl_fix (s : List Char) (h : ∀ a ∈ s, keepControl a = true) :
    remove_control_characters s = s :=
  List.filter_eq_self.mpr h

theorem ws_scrubbed (s : List Char) (c : Char) (hc : keepUnicodeWs c = false) :
    c ∉ remove_unicode_whitespace s := by
  intro h
  have h2 := (List.mem_filter.mp h).2
  rw [hc] at h2
  exact Bool.false_ne_true h2

theorem ws_fix (s : List Char) (h : ∀ a ∈ s, keepUnicodeWs a = true) :
    remove_unicode_whitespace s = s :=
  List.filter_eq_self.mpr h

theorem applyCustomChars_cons_some (entry : List Char) (ch : Char)
    (rest : List (List Char)) (s : List Char)
    (h : parseCustomChar entry = some ch) :
    applyCustomChars (entry :: rest) s =
      applyCustomChars rest (s.filter (fun c => !(c == ch))) := by
  unfold applyCustomChars
  rw [List.foldl_cons, h]

theorem applyCustomChars_cons_none (entry : List Char)
    (rest : List (List Char)) (s : List Char)
    (h : parseCustomChar entry = none) :
    applyCustomChars (entry :: rest) s = applyCustomChars rest s := by
  unfold applyCustomChars
  rw [List.foldl_cons, h]

theorem mem_applyCustomChars (cs : List (List Char)) (s : List Char) (a : Char)
    (h : a ∈ applyCustomChars cs s) : a ∈ s := by
  induction cs generalizing s with
  | nil => exact h
  | cons e rest ih =>
    cases hpe : parseCustomChar e with
    | some ch =>
      rw [applyCustomChars_cons_some e ch rest s hpe] at h
      exact List.mem_of_mem_filter (ih _ h)
    | none =>
      rw [applyCustomChars_cons_none e rest s hpe] at h
      exact ih _ h

theorem custom_scrubbed (cs : List (List Char)) (entry : List Char) (ch : Char)
    (he : entry ∈ cs) (hp : parseCustomChar entry = some ch) :
    ∀ s : List Char, ch ∉ applyCustomChars cs s := by
  induction cs with
  | nil => simp at he
  | cons e rest ih =>
    intro s
    rcases List.mem_cons.mp he with h1 | h2
    · rw [applyCustomChars_cons_some e ch rest s (h1 ▸ hp)]
      intro hmem
      have h3 := mem_applyCustomChars _ _ _ hmem
      have h4 := (List.mem_filter.mp h3).2
      simp at h4
    · cases hpe : parseCustomChar e with
      | some ch2 =>
        rw [applyCustomChars_cons_some e ch2 rest s hpe]
        exact ih h2 _
      | none =>
        rw [applyCustomChars_cons_none e rest s hpe]
        exact ih h2 _

theorem custom_fix (cs : List (List Char)) (s : List Char)
    (h : ∀ entry ∈ cs, ∀ ch, parseCustomChar entry = some ch → ch ∉ s) :
    applyCustomChars cs s = s := by
  induction cs with
  | nil => rfl
  | cons e rest ih =>
    cases hpe : parseCustomChar e with
    | some ch =>
      rw [applyCustomChars_cons_some e ch rest s hpe]
      have hfix : s.filter (fun c => !(c == ch)) = s := by
        rw [List.filter_eq_self]
        intro a ha
        have hne : a ≠ ch := fun heq =>
          h e (List.mem_cons_self e rest) ch hpe (heq ▸ ha)
        simp [hne]
      rw [hfix]
      exact ih fun entry hm ch2 hp2 => h entry (List.mem_cons_of_mem e hm) ch2 hp2
    | none =>
      rw [applyCustomChars_cons_none e rest s hpe]
      exact ih fun entry hm ch2 hp2 => h entry (List.mem_cons_of_mem e hm) ch2 hp2

theorem nm_line_pass (g : List Char → List Char)
    (hg : ∀ l a, a ∈ g l → a ∈ l) (s : List Char) (a : Char)
    (ha : a ∉ s) (hanl : a ≠ '\n') :
    a ∉ joinNL ((rustLines s).map g) := by
  intro h
  rcases mem_joinNL _ _ h with h1 | ⟨l, hl, h2⟩
  · exact hanl h1
  · obtain ⟨m, hm, hml⟩ := List.mem_map.mp hl
    rw [← hml] at h2
    exact ha (mem_of_mem_rustLines s m a hm (hg m a h2))

theorem wsg_sub (l : List Char) (a : Char)
    (h : a ∈ (if isWsOnly l then [] else l)) : a ∈ l := by
  split at h
  · simp at h
  · exact h

theorem nm_remove_trailing (s : List Char) (a : Char) (ha : a ∉ s)
    (hanl : a ≠ '\n') : a ∉ remove_trailing_whitespace s :=
  nm_line_pass trimEnd (fun l a h => mem_trimEnd l a h) s a ha hanl

theorem nm_remove_wslines (s : List Char) (a : Char) (ha : a ∉ s)
    (hanl : a ≠ '\n') : a ∉ remove_whitespace_only_lines s :=
  nm_line_pass _ wsg_sub s a ha hanl

theorem splitInclusiveNL_no_nl (s : List Char) (h : '\n' ∉ s) (hne : s ≠ []) :
    splitInclusiveNL s = [s] := by
  induction s with
  | nil => exact absurd rfl hne
  | cons c cs ih =>
    have hc : c ≠ '\n' := by
      intro he
      apply h
      rw [← he]
      exact List.mem_cons_self c cs
    cases cs with
    | nil => exact splitInclusiveNL_cons_nil c [] hc rfl
    | cons d ds =>
      have h2 : '\n' ∉ d :: ds := fun hm => h (List.mem_cons_of_mem c hm)
      exact splitInclusiveNL_cons_cons c (d :: ds) (d :: ds) [] hc
        (ih h2 (List.cons_ne_nil d ds))

theorem nl_free_wslines (s : List Char) (h : '\n' ∉ s) :
    '\n' ∉ remove_whitespace_only_lines s := by
  by_cases hne : s = []
  · subst hne
    intro hm
    simp [remove_whitespace_only_lines, rustLines, splitInclusiveNL,
      joinNL] at hm
  · have h1 : splitInclusiveNL s = [s] := splitInclusiveNL_no_nl s h hne
    have h2 : stripLineEnd s = s :=
      stripLineEnd_of_not_nl s fun hl => h (mem_of_getLast?_eq s '\n' hl)
    unfold remove_whitespace_only_lines rustLines
    rw [h1, List.map_cons, List.map_nil, h2, List.map_cons, List.map_nil,
      joinNL_singleton]
    split
    · simp
    · exact h

theorem isWsOnly_trimEnd_nil (l : List Char) (hws : isWsOnly l = true) :
    trimEnd l = [] := by
  unfold trimEnd
  have h1 : l.reverse.dropWhile isRustWhitespace = [] := by
    rw [List.dropWhile_eq_nil_iff]
    intro x hx
    exact (List.all_eq_true.mp hws) x (List.mem_reverse.mp hx)
  rw [h1]
  rfl

theorem wsg_fix_of_trimEnd (l : List Char) (h : trimEnd l = l) :
    (if isWsOnly l then [] else l) = l := by
  split
  · rename_i hws
    rw [← h]
    exact (isWsOnly_trimEnd_nil l hws).symm
  · rfl

theorem trail_fix (s : List Char) (hr : '\r' ∉ s)
    (hnl : s.getLast? ≠ some '\n') (ht : ∀ l ∈ rustLines s, trimEnd l = l) :
    remove_trailing_whitespace s = s := by
  unfold remove_trailing_whitespace
  have h1 : List.map trimEnd (rustLines s) = List.map id (rustLines s) :=
    List.map_congr_left ht
  rw [h1, List.map_id, join_rustLines s hr hnl]

theorem wslines_fix (s : List Char) (hr : '\r' ∉ s)
    (hnl : s.getLast? ≠ some '\n') (ht : ∀ l ∈ rustLines s, trimEnd l = l) :
    remove_whitespace_only_lines s = s := by
  unfold remove_whitespace_only_lines
  have h1 : List.map (fun l => if isWsOnly l then [] else l) (rustLines s) =
      List.map id (rustLines s) :=
    List.map_congr_left fun l hl => wsg_fix_of_trimEnd l (ht l hl)
  rw [h1, List.map_id, join_rustLines s hr hnl]

/-! ### The pipeline as a composition of stages -/

/-- The zero-width step of `clean_content` (the first `if` of lines 65-67). -/
def zwStage (cfg : TargetCharacters) (r : List Char) : List Char :=
  if cfg.zero_width_spaces then remove_zero_width_spaces r else r

/-- The non-breaking-space step of `clean_content` (lines 69-71). -/
def nbspStage (cfg : TargetCharacters) (r : List Char) : List Char :=
  if cfg.non_breaking_spaces then remove_non_breaking_spaces r else r

/-- The control-character step of `clean_content` (lines 73-75). -/
def ctrlStage (cfg : TargetCharacters) (r : List Char) : List Char :=
  if cfg.control_characters then remove_control_characters r else r

/-- The unicode-whitespace step of `clean_content` (lines 77-79). -/
def wsStage (cfg : TargetCharacters) (r : List Char) : List Char :=
  if cfg.unicode_whitespace then remove_unicode_whitespace r else r

/-- The trailing-whitespace step of `clean_content` (lines 81-83). -/
def trailStage (cfg : TargetCharacters) (r : List Char) : List Char :=
  if cfg.trailing_whitespace then remove_trailing_whitespace r else r

/-- The five conditional rules of `clean_content`, before the custom
characters and the unconditional whitespace-only-line pass. -/
def stagePre (cfg : TargetCharacters) (content : List Char) : List Char :=
  trailStage cfg (wsStage cfg (ctrlStage cfg (nbspStage cfg
    (zwStage cfg content))))

theorem clean_content_eq (cfg : TargetCharacters) (content : List Char) :
    clean_content cfg content =
      remove_whitespace_only_lines
        (applyCustomChars cfg.custom_chars (stagePre cfg content)) := rfl

theorem zwStage_pos (cfg : TargetCharacters) (t : List Char)
    (h : cfg.zero_width_spaces = true) :
    zwStage cfg t = remove_zero_width_spaces t := by
  unfold zwStage
  rw [if_pos h]

theorem zwStage_neg (cfg : TargetCharacters) (t : List Char)
    (h : cfg.zero_width_spaces = false) : zwStage cfg t = t := by
  unfold zwStage
  rw [if_neg (by simp [h])]

theorem nbspStage_pos (cfg : TargetCharacters) (t : List Char)
    (h : cfg.non_breaking_spaces = true) :
    nbspStage cfg t = remove_non_breaking_spaces t := by
  unfold nbspStage
  rw [if_pos h]

theorem nbspStage_neg (cfg : TargetCharacters) (t : List Char)
    (h : cfg.non_breaking_spaces = false) : nbspStage cfg t = t := by
  unfold nbspStage
  rw [if_neg (by simp [h])]

theorem ctrlStage_pos (cfg : TargetCharacters) (t : List Char)
    (h : cfg.control_characters = true) :
    ctrlStage cfg t = remove_control_characters t := by
  unfold ctrlStage
  rw [if_pos h]

theorem ctrlStage_neg (cfg : TargetCharacters) (t : List Char)
    (h : cfg.control_characters = false) : ctrlStage cfg t = t := by
  unfold ctrlStage
  rw [if_neg (by simp [h])]

theorem wsStage_pos (cfg : TargetCharacters) (t : List Char)
    (h : cfg.unicode_whitespace = true) :
    wsStage cfg t = remove_unicode_whitespace t := by
  unfold wsStage
  rw [if_pos h]

theorem wsStage_neg (cfg : TargetCharacters) (t : List Char)
    (h : cfg.unicode_whitespace = false) : wsStage cfg t = t := by
  unfold wsStage
  rw [if_neg (by simp [h])]

theorem trailStage_pos (cfg : TargetCharacters) (t : List Char)
    (h : cfg.trailing_whitespace = true) :
    trailStage cfg t = remove_trailing_whitespace t := by
  unfold trailStage
  rw [if_pos h]

theorem trailStage_neg (cfg : TargetCharacters) (t : List Char)
    (h : cfg.trailing_whitespace = false) : trailStage cfg t = t := by
  unfold trailStage
  rw [if_neg (by simp [h])]

theorem zwStage_nm (cfg : TargetCharacters) (t : List Char) (c : Char)
    (h : c ∉ t) : c ∉ zwStage cfg t := by
  unfold zwStage
  split
  · exact fun hm => h (List.mem_of_mem_filter hm)
  · exact h

theorem nbspStage_nm (cfg : TargetCharacters) (t : List Char) (c : Char)
    (h : c ∉ t) (hcs : c ≠ ' ') : c ∉ nbspStage cfg t := by
  unfold nbspStage
  split
  · intro hm
    rcases mem_remove_nbsp t c hm with hx | hx
    · exact h hx
    · exact hcs hx
  · exact h

theorem ctrlStage_nm (cfg : TargetCharacters) (t : List Char) (c : Char)
    (h : c ∉ t) : c ∉ ctrlStage cfg t := by
  unfold ctrlStage
  split
  · exact fun hm => h (List.mem_of_mem_filter hm)
  · exact h

theorem wsStage_nm (cfg : TargetCharacters) (t : List Char) (c : Char)
    (h : c ∉ t) : c ∉ wsStage cfg t := by
  unfold wsStage
  split
  · exact fun hm => h (List.mem_of_mem_filter hm)
  · exact h

theorem trailStage_nm (cfg : TargetCharacters) (t : List Char) (c : Char)
    (h : c ∉ t) (hcn : c ≠ '\n') : c ∉ trailStage cfg t := by
  unfold trailStage
  split
  · exact nm_remove_trailing t c h hcn
  · exact h

theorem clean_no_zw (cfg : TargetCharacters) (s : List Char) (c : Char)
    (hz : cfg.zero_width_spaces = true) (hc : c ∈ zeroWidthTargets) :
    c ∉ clean_content cfg s := by
  have hcn : c ≠ '\n' := by
    intro he
    rw [he] at hc
    exact absurd hc (by decide)
  have hcs : c ≠ ' ' := by
    intro he
    rw [he] at hc
    exact absurd hc (by decide)
  rw [clean_content_eq]
  apply nm_remove_wslines _ _ _ hcn
  intro hmem
  have h1 : c ∈ stagePre cfg s := mem_applyCustomChars _ _ _ hmem
  unfold stagePre at h1
  have h2 : c ∉ zwStage cfg s := by
    rw [zwStage_pos cfg s hz]
    exact zw_scrubbed s c hc
  exact trailStage_nm cfg _ c
    (wsStage_nm cfg _ c (ctrlStage_nm cfg _ c (nbspStage_nm cfg _ c h2 hcs)))
    hcn h1

theorem clean_no_nbsp (cfg : TargetCharacters) (s : List Char)
    (hn : cfg.non_breaking_spaces = true) : '\u00A0' ∉ clean_content cfg s := by
  have hcn : ('\u00A0' : Char) ≠ '\n' := by decide
  rw [clean_content_eq]
  apply nm_remove_wslines _ _ _ hcn
  intro hmem
  have h1 : '\u00A0' ∈ stagePre cfg s := mem_applyCustomChars _ _ _ hmem
  unfold stagePre at h1
  have h2 : '\u00A0' ∉ nbspStage cfg (zwStage cfg s) := by
    rw [nbspStage_pos cfg _ hn]
    exact nbsp_scrubbed _
  exact trailStage_nm cfg _ _
    (wsStage_nm cfg _ _ (ctrlStage_nm cfg _ _ h2)) hcn h1

theorem clean_no_ctrl (cfg : TargetCharacters) (s : List Char) (c : Char)
    (hcc : cfg.control_characters = true) (hk : keepControl c = false) :
    c ∉ clean_content cfg s := by
  have hcn : c ≠ '\n' := by
    intro he
    rw [he] at hk
    exact absurd hk (by decide)
  rw [clean_content_eq]
  apply nm_remove_wslines _ _ _ hcn
  intro hmem
  have h1 : c ∈ stagePre cfg s := mem_applyCustomChars _ _ _ hmem
  unfold stagePre at h1
  have h2 : c ∉ ctrlStage cfg (nbspStage cfg (zwStage cfg s)) := by
    rw [ctrlStage_pos cfg _ hcc]
    exact ctrl_scrubbed _ c hk
  exact trailStage_nm cfg _ _ (wsStage_nm cfg _ _ h2) hcn h1

theorem clean_no_ws (cfg : TargetCharacters) (s : List Char) (c : Char)
    (hws : cfg.unicode_whitespace = true) (hk : keepUnicodeWs c = false) :
    c ∉ clean_content cfg s := by
  have hcn : c ≠ '\n' := by
    intro he
    rw [he] at hk
    exact absurd hk (by decide)
  rw [clean_content_eq]
  apply nm_remove_wslines _ _ _ hcn
  intro hmem
  have h1 : c ∈ stagePre cfg s := mem_applyCustomChars _ _ _ hmem
  unfold stagePre at h1
  have h2 : c ∉ wsStage cfg (ctrlStage cfg (nbspStage cfg (zwStage cfg s))) := by
    rw [wsStage_pos cfg _ hws]
    exact ws_scrubbed _ c hk
  exact trailStage_nm cfg _ _ h2 hcn h1

theorem clean_no_custom (cfg : TargetCharacters) (s : List Char)
    (entry : List Char) (ch : Char) (he : entry ∈ cfg.custom_chars)
    (hp : parseCustomChar entry = some ch) : ch ∉ clean_content cfg s := by
  rw [clean_content_eq]
  have h1 : ch ∉ applyCustomChars cfg.custom_chars (stagePre cfg s) :=
    custom_scrubbed cfg.custom_chars entry ch he hp _
  by_cases hch : ch = '\n'
  · subst hch
    exact nl_free_wslines _ h1
  · exact nm_remove_wslines _ _ h1 hch

/-! ### Newline bookkeeping through the full pipeline -/

theorem ends_filter (p : Char → Bool) (hp : p '\n' = true) (s : List Char)
    (h : s.getLast? = some '\n') : (s.filter p).getLast? = some '\n' := by
  obtain ⟨t, rfl⟩ := List.getLast?_eq_some_iff.mp h
  rw [List.filter_append]
  have h2 : List.filter p ['\n'] = ['\n'] := by simp [hp]
  rw [h2, List.getLast?_concat]

theorem ends_nbsp (s : List Char) (h : s.getLast? = some '\n') :
    (remove_non_breaking_spaces s).getLast? = some '\n' := by
  obtain ⟨t, rfl⟩ := List.getLast?_eq_some_iff.mp h
  unfold remove_non_breaking_spaces
  rw [List.map_append]
  have h2 : List.map (fun c => if c = '\u00A0' then ' ' else c) ['\n'] =
      ['\n'] := by decide
  rw [h2, List.getLast?_concat]

theorem count_nbsp (s : List Char) :
    List.count '\n' (remove_non_breaking_spaces s) = List.count '\n' s := by
  unfold remove_non_breaking_spaces
  induction s with
  | nil => rfl
  | cons a t ih =>
    rw [List.map_cons]
    by_cases ha : a = '\u00A0'
    · subst ha
      rw [if_pos rfl, List.count_cons_of_ne (by decide) _,
        List.count_cons_of_ne (by decide) t, ih]
    · rw [if_neg ha]
      by_cases han : a = '\n'
      · subst han
        rw [List.count_cons_self, List.count_cons_self, ih]
      · rw [List.count_cons_of_ne (Ne.symm han) _,
          List.count_cons_of_ne (Ne.symm han) t, ih]

theorem zwStage_ends_count (cfg : TargetCharacters) (t : List Char)
    (h : t.getLast? = some '\n') :
    (zwStage cfg t).getLast? = some '\n' ∧
    List.count '\n' (zwStage cfg t) = List.count '\n' t := by
  unfold zwStage
  split
  · exact ⟨ends_filter _ (by decide) t h, List.count_filter (by decide)⟩
  · exact ⟨h, rfl⟩

theorem nbspStage_ends_count (cfg : TargetCharacters) (t : List Char)
    (h : t.getLast? = some '\n') :
    (nbspStage cfg t).getLast? = some '\n' ∧
    List.count '\n' (nbspStage cfg t) = List.count '\n' t := by
  unfold nbspStage
  split
  · exact ⟨ends_nbsp t h, count_nbsp t⟩
  · exact ⟨h, rfl⟩

theorem ctrlStage_ends_count (cfg : TargetCharacters) (t : List Char)
    (h : t.getLast? = some '\n') :
    (ctrlStage cfg t).getLast? = some '\n' ∧
    List.count '\n' (ctrlStage cfg t) = List.count '\n' t := by
  unfold ctrlStage
  split
  · exact ⟨ends_filter _ (by decide) t h, List.count_filter (by decide)⟩
  · exact ⟨h, rfl⟩

theorem wsStage_ends_count (cfg : TargetCharacters) (t : List Char)
    (h : t.getLast? = some '\n') :
    (wsStage cfg t).getLast? = some '\n' ∧
    List.count '\n' (wsStage cfg t) = List.count '\n' t := by
  unfold wsStage
  split
  · exact ⟨ends_filter _ (by decide) t h, List.count_filter (by decide)⟩
  · exact ⟨h, rfl⟩

theorem custom_ends_count (cs : List (List Char)) (s : List Char) :
    List.count '\n' (applyCustomChars cs s) ≤ List.count '\n' s ∧
    (s.getLast? = some '\n' →
      (applyCustomChars cs s).getLast? = some '\n' ∨
      List.count '\n' (applyCustomChars cs s) = 0) := by
  induction cs generalizing s with
  | nil => exact ⟨Nat.le_refl _, fun h => Or.inl h⟩
  | cons e rest ih =>
    cases hpe : parseCustomChar e with
    | none =>
      rw [applyCustomChars_cons_none e rest s hpe]
      exact ih s
    | some ch =>
      rw [applyCustomChars_cons_some e ch rest s hpe]
      by_cases hch : ch = '\n'
      · subst hch
        have h0 : List.count '\n' (s.filter (fun c => !(c == '\n'))) = 0 := by
          rw [List.count_eq_zero]
          intro hm
          have h1 := (List.mem_filter.mp hm).2
          simp at h1
        obtain ⟨ih1, _⟩ := ih (s.filter (fun c => !(c == '\n')))
        have h2 : List.count '\n'
            (applyCustomChars rest (s.filter (fun c => !(c == '\n')))) = 0 :=
          Nat.le_zero.mp (h0 ▸ ih1)
        exact ⟨h2 ▸ Nat.zero_le _, fun _ => Or.inr h2⟩
      · have hb : (('\n' : Char) == ch) = false :=
          beq_eq_false_iff_ne.mpr fun hx => hch hx.symm
        have hp2 : (fun c => !(c == ch)) '\n' = true := by
          simp only [hb]
          rfl
        have hcount : List.count '\n' (s.filter (fun c => !(c == ch))) =
            List.count '\n' s := List.count_filter hp2
        obtain ⟨ih1, ih2⟩ := ih (s.filter (fun c => !(c == ch)))
        refine ⟨le_trans ih1 (le_of_eq hcount), fun hend => ?_⟩
        exact ih2 (ends_filter _ hp2 s hend)

theorem last_passes_count_lt (cs : List (List Char)) (s4 : List Char)
    (tw : Bool) (e4 : s4.getLast? = some '\n') :
    List.count '\n' (remove_whitespace_only_lines (applyCustomChars cs
      (if tw then remove_trailing_whitespace s4 else s4))) <
      List.count '\n' s4 := by
  have hpos : 0 < List.count '\n' s4 :=
    List.count_pos_iff.mpr (mem_of_getLast?_eq s4 '\n' e4)
  have hL : ∀ u : List Char,
      List.count '\n' (remove_whitespace_only_lines u) =
        List.count '\n' u + nlExtra u - 1 := fun u =>
    count_nl_lineMap _ wsg_sub u
  cases tw with
  | false =>
    rw [if_neg (by simp)]
    obtain ⟨hc_le, hc_ends⟩ := custom_ends_count cs s4
    rcases hc_ends e4 with hu_ends | hu_zero
    · rw [hL, nlExtra_of_ends_nl _ hu_ends]
      have h1 : 0 < List.count '\n' (applyCustomChars cs s4) :=
        List.count_pos_iff.mpr (mem_of_getLast?_eq _ '\n' hu_ends)
      omega
    · rw [hL, hu_zero]
      have h2 := nlExtra_le_one (applyCustomChars cs s4)
      omega
  | true =>
    rw [if_pos rfl]
    have hT : List.count '\n' (remove_trailing_whitespace s4) =
        List.count '\n' s4 + nlExtra s4 - 1 :=
      count_nl_lineMap trimEnd (fun l a => mem_trimEnd l a) s4
    rw [nlExtra_of_ends_nl _ e4] at hT
    obtain ⟨hc_le, _⟩ := custom_ends_count cs (remove_trailing_whitespace s4)
    rw [hL]
    have h2 := nlExtra_le_one
      (applyCustomChars cs (remove_trailing_whitespace s4))
    omega

theorem clean_count_lt (cfg : TargetCharacters) (s : List Char)
    (h : s.getLast? = some '\n') :
    List.count '\n' (clean_content cfg s) < List.count '\n' s := by
  obtain ⟨e1, c1⟩ := zwStage_ends_count cfg s h
  obtain ⟨e2, c2⟩ := nbspStage_ends_count cfg (zwStage cfg s) e1
  obtain ⟨e3, c3⟩ := ctrlStage_ends_count cfg (nbspStage cfg (zwStage cfg s)) e2
  obtain ⟨e4, c4⟩ :=
    wsStage_ends_count cfg (ctrlStage cfg (nbspStage cfg (zwStage cfg s))) e3
  rw [clean_content_eq]
  unfold stagePre trailStage
  calc List.count '\n' (remove_whitespace_only_lines
        (applyCustomChars cfg.custom_chars
          (if cfg.trailing_whitespace then
            remove_trailing_whitespace
              (wsStage cfg (ctrlStage cfg (nbspStage cfg (zwStage cfg s))))
          else wsStage cfg (ctrlStage cfg (nbspStage cfg (zwStage cfg s)))))) <
      List.count '\n'
        (wsStage cfg (ctrlStage cfg (nbspStage cfg (zwStage cfg s)))) :=
      last_passes_count_lt cfg.custom_chars _ cfg.trailing_whitespace e4
    _ = List.count '\n' s := by rw [c4, c3, c2, c1]

/-! ### Byte lengths never grow -/

theorem byteLen_append (a b : List Char) :
    byteLen (a ++ b) = byteLen a + byteLen b := by
  simp [byteLen]

theorem byteLen_cons (a : Char) (t : List Char) :
    byteLen (a :: t) = a.utf8Size + byteLen t := by
  simp [byteLen]

theorem byteLen_sublist (l1 l2 : List Char) (h : l1.Sublist l2) :
    byteLen l1 ≤ byteLen l2 :=
  (h.map Char.utf8Size).sum_le_sum fun a _ => Nat.zero_le a

theorem byteLen_stripLineEnd_le (l : List Char) :
    byteLen (stripLineEnd l) ≤ byteLen l := by
  unfold stripLineEnd
  split
  · split
    · exact byteLen_sublist _ _
        ((List.dropLast_sublist _).trans (List.dropLast_sublist l))
    · exact byteLen_sublist _ _ (List.dropLast_sublist l)
  · exact Nat.le_refl _

theorem byteLen_stripLineEnd_lt (l : List Char)
    (h : l.getLast? = some '\n') :
    byteLen (stripLineEnd l) + 1 ≤ byteLen l := by
  obtain ⟨t, rfl⟩ := List.getLast?_eq_some_iff.mp h
  have h1 : (t ++ ['\n']).getLast? = some '\n' := List.getLast?_concat t
  unfold stripLineEnd
  rw [if_pos h1, List.dropLast_concat, byteLen_append]
  have h3 : byteLen ['\n'] = 1 := by decide
  rw [h3]
  split
  · have h4 : byteLen t.dropLast ≤ byteLen t :=
      byteLen_sublist _ _ (List.dropLast_sublist t)
    omega
  · omega

theorem byteLen_trimEnd_le (l : List Char) : byteLen (trimEnd l) ≤ byteLen l := by
  unfold trimEnd
  have h1 : (l.reverse.dropWhile isRustWhitespace).reverse.Sublist
      l.reverse.reverse :=
    (List.dropWhile_sublist _).reverse
  rw [List.reverse_reverse] at h1
  exact byteLen_sublist _ _ h1

theorem byteLen_joinNL_chunks_le (g : List Char → List Char)
    (hg : ∀ l, byteLen (g l) ≤ byteLen l) (C : List (List Char))
    (hnl : nonLastNL C) :
    byteLen (joinNL (C.map (g ∘ stripLineEnd))) ≤ byteLen C.flatten := by
  induction C with
  | nil => exact Nat.le_refl _
  | cons c rest ih =>
    cases rest with
    | nil =>
      simp only [List.map_cons, List.map_nil, joinNL_singleton,
        List.flatten_cons, List.flatten_nil, List.append_nil]
      exact le_trans (hg _) (byteLen_stripLineEnd_le c)
    | cons c2 cs2 =>
      obtain ⟨hce, hrest⟩ := hnl
      rw [List.map_cons, List.map_cons, joinNL_cons_cons, List.flatten_cons,
        byteLen_append, byteLen_append, byteLen_cons]
      rw [← List.map_cons (g ∘ stripLineEnd) c2 cs2]
      have h1 : byteLen ((g ∘ stripLineEnd) c) + 1 ≤ byteLen c :=
        le_trans (Nat.add_le_add_right (hg _) 1) (byteLen_stripLineEnd_lt c hce)
      have h2 := ih hrest
      have h3 : ('\n' : Char).utf8Size = 1 := by decide
      omega

theorem byteLen_line_pass_le (g : List Char → List Char)
    (hg : ∀ l, byteLen (g l) ≤ byteLen l) (s : List Char) :
    byteLen (joinNL ((rustLines s).map g)) ≤ byteLen s := by
  unfold rustLines
  rw [List.map_map]
  calc byteLen (joinNL ((splitInclusiveNL s).map (g ∘ stripLineEnd))) ≤
      byteLen (splitInclusiveNL s).flatten :=
      byteLen_joinNL_chunks_le g hg _ (splitInclusiveNL_nonLast s)
    _ = byteLen s := by rw [flatten_splitInclusiveNL]

theorem byteLen_remove_trailing_le (s : List Char) :
    byteLen (remove_trailing_whitespace s) ≤ byteLen s :=
  byteLen_line_pass_le trimEnd byteLen_trimEnd_le s

theorem byteLen_remove_wslines_le (s : List Char) :
    byteLen (remove_whitespace_only_lines s) ≤ byteLen s := by
  apply byteLen_line_pass_le
  intro l
  split
  · exact Nat.zero_le _
  · exact Nat.le_refl _

theorem byteLen_nbsp_le (s : List Char) :
    byteLen (remove_non_breaking_spaces s) ≤ byteLen s := by
  unfold remove_non_breaking_spaces byteLen
  rw [List.map_map]
  apply List.sum_le_sum
  intro a _
  by_cases ha : a = '\u00A0'
  · subst ha
    simp only [Function.comp_apply, if_pos rfl]
    decide
  · simp only [Function.comp_apply, if_neg ha]
    exact Nat.le_refl _

theorem byteLen_custom_le (cs : List (List Char)) (s : List Char) :
    byteLen (applyCustomChars cs s) ≤ byteLen s := by
  induction cs generalizing s with
  | nil => exact Nat.le_refl _
  | cons e rest ih =>
    cases hpe : parseCustomChar e with
    | none =>
      rw [applyCustomChars_cons_none e rest s hpe]
      exact ih s
    | some ch =>
      rw [applyCustomChars_cons_some e ch rest s hpe]
      exact le_trans (ih _) (byteLen_sublist _ _ (List.filter_sublist s))

theorem byteLen_clean_le (cfg : TargetCharacters) (s : List Char) :
    byteLen (clean_content cfg s) ≤ byteLen s := by
  rw [clean_content_eq]
  have hz : byteLen (zwStage cfg s) ≤ byteLen s := by
    unfold zwStage
    split
    · exact byteLen_sublist _ _ (List.filter_sublist s)
    · exact Nat.le_refl _
  have hn : byteLen (nbspStage cfg (zwStage cfg s)) ≤ byteLen s := by
    unfold nbspStage
    split
    · exact le_trans (byteLen_nbsp_le _) hz
    · exact hz
  have hc : byteLen (ctrlStage cfg (nbspStage cfg (zwStage cfg s))) ≤
      byteLen s := by
    unfold ctrlStage
    split
    · exact le_trans (byteLen_sublist _ _ (List.filter_sublist _)) hn
    · exact hn
  have hw : byteLen
      (wsStage cfg (ctrlStage cfg (nbspStage cfg (zwStage cfg s)))) ≤
      byteLen s := by
    unfold wsStage
    split
    · exact le_trans (byteLen_sublist _ _ (List.filter_sublist _)) hc
    · exact hc
  have ht : byteLen (stagePre cfg s) ≤ byteLen s := by
    unfold stagePre trailStage
    split
    · exact le_trans (byteLen_remove_trailing_le _) hw
    · exact hw
  exact le_trans (byteLen_remove_wslines_le _)
    (le_trans (byteLen_custom_le _ _) ht)

/-! ### Concrete configurations used by the claims -/

/-- All five boolean rules on, no custom characters (the default
`TargetCharacters` of `src/config.rs`). -/
def tcAllRules : TargetCharacters := ⟨true, true, true, true, true, []⟩

/-- Every rule off, no custom characters. -/
def tcNoRules : TargetCharacters := ⟨false, false, false, false, false, []⟩

/-- Only the non-breaking-space rule on. -/
def tcNbspOnly : TargetCharacters := ⟨false, true, false, false, false, []⟩

/-- Only the trailing-whitespace rule on. -/
def tcTrailingOnly : TargetCharacters := ⟨false, false, false, false, true, []⟩

/-- Only the zero-width-space rule on. -/
def tcZeroWidthOnly : TargetCharacters := ⟨true, false, false, false, false, []⟩

theorem contains_eq_false_of_not_mem (l : List Char) (a : Char) (h : a ∉ l) :
    l.contains a = false := by
  cases hct : l.contains a
  · rfl
  · exact absurd ((contains_true_iff l a).mp hct) h

/-- Claim C1 (counterexample): the full cleaning pipeline is not idempotent.
With the default configuration (all five rules on, no custom characters) and
input `"a\n \n "`, the first pass yields `"a\n"` and the second `"a"`. -/
theorem c1_counterexample :
    clean_content tcAllRules (clean_content tcAllRules "a\n \n ".toList) ≠
      clean_content tcAllRules "a\n \n ".toList := by decide

/-- Claim C1 (amended): the cleaning transform is idempotent on inputs whose
first-pass output is already line-normalized: if `clean_content cfg s`
contains no carriage return, does not end with a newline, and none of its
lines carries trailing whitespace, then cleaning it again changes nothing.
(The counterexample shows the unrestricted statement is false: the
line-splitting passes can leave a trailing newline or a `\r\n` pair that a
second pass still rewrites.) -/
theorem c1_amended (cfg : TargetCharacters) (s : List Char)
    (hr : '\r' ∉ clean_content cfg s)
    (hnl : (clean_content cfg s).getLast? ≠ some '\n')
    (ht : ∀ l ∈ rustLines (clean_content cfg s), trimEnd l = l) :
    clean_content cfg (clean_content cfg s) = clean_content cfg s := by
  have h1 : zwStage cfg (clean_content cfg s) = clean_content cfg s := by
    cases hz : cfg.zero_width_spaces with
    | false => exact zwStage_neg cfg _ hz
    | true =>
      rw [zwStage_pos cfg _ hz]
      exact zw_fix _ fun c hc => clean_no_zw cfg s c hz hc
  have h2 : nbspStage cfg (clean_content cfg s) = clean_content cfg s := by
    cases hn : cfg.non_breaking_spaces with
    | false => exact nbspStage_neg cfg _ hn
    | true =>
      rw [nbspStage_pos cfg _ hn]
      exact nbsp_fix _ (clean_no_nbsp cfg s hn)
  have h3 : ctrlStage cfg (clean_content cfg s) = clean_content cfg s := by
    cases hcc : cfg.control_characters with
    | false => exact ctrlStage_neg cfg _ hcc
    | true =>
      rw [ctrlStage_pos cfg _ hcc]
      apply ctrl_fix
      intro a ha
      cases hk : keepControl a with
      | true => rfl
      | false => exact absurd ha (clean_no_ctrl cfg s a hcc hk)
  have h4 : wsStage cfg (clean_content cfg s) = clean_content cfg s := by
    cases hws : cfg.unicode_whitespace with
    | false => exact wsStage_neg cfg _ hws
    | true =>
      rw [wsStage_pos cfg _ hws]
      apply ws_fix
      intro a ha
      cases hk : keepUnicodeWs a with
      | true => rfl
      | false => exact absurd ha (clean_no_ws cfg s a hws hk)
  have h5 : trailStage cfg (clean_content cfg s) = clean_content cfg s := by
    cases htw : cfg.trailing_whitespace with
    | false => exact trailStage_neg cfg _ htw
    | true =>
      rw [trailStage_pos cfg _ htw]
      exact trail_fix _ hr hnl ht
  have h6 : applyCustomChars cfg.custom_chars (clean_content cfg s) =
      clean_content cfg s :=
    custom_fix _ _ fun entry he ch hp => clean_no_custom cfg s entry ch he hp
  have h7 : remove_whitespace_only_lines (clean_content cfg s) =
      clean_content cfg s :=
    wslines_fix _ hr hnl ht
  rw [clean_content_eq cfg (clean_content cfg s)]
  unfold stagePre
  rw [h1, h2, h3, h4, h5, h6, h7]

/-- Witness for the amended C1 at a concrete normalized input. -/
theorem c1_amended_witness :
    clean_content tcAllRules (clean_content tcAllRules "hello world".toList) =
      clean_content tcAllRules "hello world".toList :=
  c1_amended tcAllRules "hello world".toList (by decide) (by decide)
    (by decide)

/-- Claim C2 (counterexample): with only the non-breaking-space rule on,
cleaning `"a\u00A0b"` does change the byte length: U+00A0 is two UTF-8
bytes and the space replacing it is one, so `count_changes` reports 1,
not 0. -/
theorem c2_counterexample :
    count_changes "a\u00A0b".toList
      (clean_content tcNbspOnly "a\u00A0b".toList) ≠ 0 := by decide

/-- Claim C2 (amended): with only the non-breaking-space rule enabled,
`clean_content` maps `"a\u00A0b"` to `"a b"`, and the reported change count
(original byte length minus cleaned byte length) is 1, because the
two-byte U+00A0 is replaced by a one-byte space. -/
theorem c2_amended :
    clean_content tcNbspOnly "a\u00A0b".toList = "a b".toList ∧
    count_changes "a\u00A0b".toList
      (clean_content tcNbspOnly "a\u00A0b".toList) = 1 := by decide

/-- Claim C3 (counterexample): with the trailing-whitespace rule enabled,
the input `"foo   \nbar\t\n"` is not mapped to `"foo\nbar\n"`: the
`lines`/`join` reconstruction drops the final newline. -/
theorem c3_counterexample :
    clean_content tcTrailingOnly "foo   \nbar\t\n".toList ≠
      "foo\nbar\n".toList := by decide

/-- Claim C3 (amended): with the trailing-whitespace rule enabled,
`"foo   \nbar\t\n"` is cleaned to `"foo\nbar"`: each line is right-trimmed
and the lines are rejoined with `\n`, which does not restore the final
newline. -/
theorem c3_amended :
    clean_content tcTrailingOnly "foo   \nbar\t\n".toList =
      "foo\nbar".toList := by decide

/-- Claim C4 (counterexample): with only the zero-width rule enabled,
`clean_content` is not limited to removing the four zero-width characters:
the unconditional whitespace-only-line pass also rewrites other input, for
example dropping the final newline of `"a\n"`, an input containing no
zero-width character at all. -/
theorem c4_counterexample :
    clean_content tcZeroWidthOnly "a\n".toList ≠ "a\n".toList := by decide

/-- Claim C4 (amended): with only the zero-width rule enabled,
`clean_content` equals the whitespace-only-line pass applied to the input
with every U+200B, U+200C, U+200D and U+FEFF filtered out; in particular
none of the four zero-width characters survives.  Beyond that filtering,
only the unconditional line pass alters the input. -/
theorem c4_amended (s : List Char) :
    clean_content tcZeroWidthOnly s =
      remove_whitespace_only_lines
        (s.filter (fun c => !(zeroWidthTargets.contains c))) ∧
    (clean_content tcZeroWidthOnly s).contains '\u200B' = false ∧
    (clean_content tcZeroWidthOnly s).contains '\u200C' = false ∧
    (clean_content tcZeroWidthOnly s).contains '\u200D' = false ∧
    (clean_content tcZeroWidthOnly s).contains '\uFEFF' = false := by
  refine ⟨rfl, ?_, ?_, ?_, ?_⟩ <;>
    · apply contains_eq_false_of_not_mem
      exact clean_no_zw tcZeroWidthOnly s _ rfl (by decide)

/-- Claim C8: the control-character rule and the unicode-whitespace rule
never remove a newline, carriage return or tab: every occurrence of these
three characters is preserved (their counts are unchanged) by both
filters. -/
theorem c8_preserve_nl_cr_tab (s : List Char) :
    List.count '\n' (remove_control_characters s) = List.count '\n' s ∧
    List.count '\r' (remove_control_characters s) = List.count '\r' s ∧
    List.count '\t' (remove_control_characters s) = List.count '\t' s ∧
    List.count '\n' (remove_unicode_whitespace s) = List.count '\n' s ∧
    List.count '\r' (remove_unicode_whitespace s) = List.count '\r' s ∧
    List.count '\t' (remove_unicode_whitespace s) = List.count '\t' s :=
  ⟨List.count_filter (by decide), List.count_filter (by decide),
   List.count_filter (by decide), List.count_filter (by decide),
   List.count_filter (by decide), List.count_filter (by decide)⟩

/-- Claim C10: for every configuration and input, cleaning never lengthens
the text in bytes, so the subtraction in `count_changes` applied to an
original and its cleaned result is exact (it never underflows). -/
theorem c10_no_underflow (cfg : TargetCharacters) (s : List Char) :
    byteLen (clean_content cfg s) ≤ byteLen s ∧
    count_changes s (clean_content cfg s) + byteLen (clean_content cfg s) =
      byteLen s := by
  have h := byteLen_clean_le cfg s
  refine ⟨h, ?_⟩
  unfold count_changes
  omega

/-! ### The extension filter, the processor and the walker -/

theorem cond_ne_true (b : Bool) (h : b = false) : ¬(b = true) := by
  rw [h]
  exact Bool.false_ne_true

theorem contains_eq_false_of_not_mem_str (l : List String) (a : String)
    (h : a ∉ l) : l.contains a = false := by
  cases hct : l.contains a
  · rfl
  · exact absurd (List.elem_iff.mp hct) h

theorem isEmpty_eq_false_of_ne_nil (l : List String) (h : l ≠ []) :
    l.isEmpty = false := by
  cases hie : l.isEmpty
  · rfl
  · exact absurd (List.isEmpty_iff.mp hie) h

/-- Claim C5: the extension rule of `should_process_file`.  An extensionless
path is always accepted.  For a path with extension `ext`: if the deny-list
is non-empty and contains `ext` the path is rejected (even when `ext` is
also in the allow-list, since the deny check runs first); otherwise, if the
allow-list is non-empty and does not contain `ext` the path is rejected;
otherwise it is accepted. -/
theorem c5_extension_filter (cfg : GhostScrubConfig) (ext : String) :
    should_process_file cfg none = true ∧
    (cfg.exclude_extensions ≠ [] → ext ∈ cfg.exclude_extensions →
      should_process_file cfg (some ext) = false) ∧
    (¬(cfg.exclude_extensions ≠ [] ∧ ext ∈ cfg.exclude_extensions) →
      cfg.include_extensions ≠ [] → ext ∉ cfg.include_extensions →
      should_process_file cfg (some ext) = false) ∧
    (¬(cfg.exclude_extensions ≠ [] ∧ ext ∈ cfg.exclude_extensions) →
      (cfg.include_extensions = [] ∨ ext ∈ cfg.include_extensions) →
      should_process_file cfg (some ext) = true) := by
  refine ⟨rfl, ?_, ?_, ?_⟩
  · intro hne hmem
    have h1 : cfg.exclude_extensions.isEmpty = false :=
      isEmpty_eq_false_of_ne_nil _ hne
    have h2 : cfg.exclude_extensions.contains ext = true :=
      List.elem_iff.mpr hmem
    have hcond : (!cfg.exclude_extensions.isEmpty &&
        cfg.exclude_extensions.contains ext) = true := by
      rw [h1, h2]
      rfl
    simp only [should_process_file]
    rw [if_pos hcond]
  · intro hnot hine hnmem
    have hcond : (!cfg.exclude_extensions.isEmpty &&
        cfg.exclude_extensions.contains ext) = false := by
      by_cases he : cfg.exclude_extensions = []
      · rw [he]
        rfl
      · have hmem : ext ∉ cfg.exclude_extensions := fun hm => hnot ⟨he, hm⟩
        rw [contains_eq_false_of_not_mem_str _ _ hmem, Bool.and_false]
    have h1 : cfg.include_extensions.isEmpty = false :=
      isEmpty_eq_false_of_ne_nil _ hine
    have h2 : cfg.include_extensions.contains ext = false :=
      contains_eq_false_of_not_mem_str _ _ hnmem
    have hcond2 : (!cfg.include_extensions.isEmpty &&
        !cfg.include_extensions.contains ext) = true := by
      rw [h1, h2]
      rfl
    simp only [should_process_file]
    rw [if_neg (cond_ne_true _ hcond), if_pos hcond2]
  · intro hnot hinc
    have hcond : (!cfg.exclude_extensions.isEmpty &&
        cfg.exclude_extensions.contains ext) = false := by
      by_cases he : cfg.exclude_extensions = []
      · rw [he]
        rfl
      · have hmem : ext ∉ cfg.exclude_extensions := fun hm => hnot ⟨he, hm⟩
        rw [contains_eq_false_of_not_mem_str _ _ hmem, Bool.and_false]
    have hcond2 : (!cfg.include_extensions.isEmpty &&
        !cfg.include_extensions.contains ext) = false := by
      rcases hinc with h0 | h0
      · rw [h0]
        rfl
      · have h2 : cfg.include_extensions.contains ext = true :=
          List.elem_iff.mpr h0
        rw [h2]
        simp
    simp only [should_process_file]
    rw [if_neg (cond_ne_true _ hcond), if_neg (cond_ne_true _ hcond2)]

/-- A configuration whose deny-list and allow-list both hold `log`. -/
def cfgC5 : GhostScrubConfig :=
  ⟨["log"], ["log"], [], [], tcAllRules, VerbosityLevel.Normal⟩

/-- Witness for C5: `log` is both allowed and denied; the deny-list wins,
and an extensionless path is accepted. -/
theorem c5_extension_filter_witness :
    should_process_file cfgC5 (some "log") = false ∧
    should_process_file cfgC5 none = true :=
  ⟨(c5_extension_filter cfgC5 "log").2.1 (by decide) (by decide),
   (c5_extension_filter cfgC5 "log").1⟩

/-- Claim C7: in dry-run mode the processor never mutates the file: the
content on disk after the call is the content before it, and the count
reported in `DryRun` is exactly the count the same call with
`dry_run = false` reports in `Cleaned`. -/
theorem c7_dry_run_no_write (cfg : GhostScrubConfig) (ext : Option String)
    (disk : Option (List Char)) (v : Bool) :
    (∀ res disk2, process_file cfg ext disk true v = .ok (res, disk2) →
      disk2 = disk) ∧
    (∀ n : Nat,
      (process_file cfg ext disk true v).map Prod.fst =
          .ok (ProcessResult.DryRun n) ↔
        (process_file cfg ext disk false v).map Prod.fst =
          .ok (ProcessResult.Cleaned n)) := by
  cases hs : should_process_file cfg ext with
  | false =>
    have hred : ∀ dr : Bool, process_file cfg ext disk dr v =
        Except.ok (ProcessResult.Skipped, disk) := by
      intro dr
      unfold process_file
      rw [if_pos (by rw [hs]; rfl)]
    constructor
    · intro res disk2 h
      rw [hred true] at h
      injection h with h1
      injection h1 with h2 h3
      exact h3.symm
    · intro n
      rw [hred true, hred false]
      simp [Except.map]
  | true =>
    cases disk with
    | none =>
      have hred : ∀ dr : Bool, process_file cfg ext none dr v =
          Except.error () := by
        intro dr
        unfold process_file
        rw [if_neg (cond_ne_true _ (by rw [hs]; rfl))]
      constructor
      · intro res disk2 h
        rw [hred true] at h
        exact absurd h (by simp)
      · intro n
        rw [hred true, hred false]
        simp [Except.map]
    | some content =>
      have hred : ∀ dr : Bool, process_file cfg ext (some content) dr v =
          if content = clean_content cfg.target_characters content then
            Except.ok (ProcessResult.NoChanges, some content)
          else if dr then
            Except.ok (ProcessResult.DryRun (count_changes content
              (clean_content cfg.target_characters content)), some content)
          else
            Except.ok (ProcessResult.Cleaned (count_changes content
              (clean_content cfg.target_characters content)),
              some (clean_content cfg.target_characters content)) := by
        intro dr
        unfold process_file
        rw [if_neg (cond_ne_true _ (by rw [hs]; rfl))]
      constructor
      · intro res disk2 h
        rw [hred true] at h
        split at h
        · injection h with h1
          injection h1 with h2 h3
          exact h3.symm
        · rw [if_pos rfl] at h
          injection h with h1
          injection h1 with h2 h3
          exact h3.symm
      · intro n
        rw [hred true, hred false]
        by_cases heq : content = clean_content cfg.target_characters content
        · rw [if_pos heq, if_pos heq]
          simp [Except.map]
        · rw [if_neg heq, if_neg heq, if_pos rfl,
            if_neg (cond_ne_true false rfl)]
          simp [Except.map]

instance {e a : Type} [DecidableEq e] [DecidableEq a] :
    DecidableEq (Except e a) := fun x y =>
  match x, y with
  | .ok v, .ok w =>
    if h : v = w then isTrue (by rw [h])
    else isFalse (by intro hc; injection hc; exact h ‹_›)
  | .error v, .error w =>
    if h : v = w then isTrue (by rw [h])
    else isFalse (by intro hc; injection hc; exact h ‹_›)
  | .ok _, .error _ => isFalse (by intro hc; exact Except.noConfusion hc)
  | .error _, .ok _ => isFalse (by intro hc; exact Except.noConfusion hc)

/-- A one-file configuration accepting every path, used as witness data. -/
def cfgOpen : GhostScrubConfig :=
  ⟨[], [], [], [], tcAllRules, VerbosityLevel.Normal⟩

/-- Witness for C7: on a file containing `"a b"` the dry run reports the
same count (1) that the real run reports, and leaves the content alone. -/
theorem c7_dry_run_no_write_witness :
    (some "a\u00A0b".toList : Option (List Char)) = some "a\u00A0b".toList ∧
    (process_file cfgOpen none (some "a\u00A0b".toList) false false).map
      Prod.fst = .ok (ProcessResult.Cleaned 1) :=
  ⟨(c7_dry_run_no_write cfgOpen none (some "a\u00A0b".toList) false).1
      (ProcessResult.DryRun 1) (some "a\u00A0b".toList) (by decide),
   ((c7_dry_run_no_write cfgOpen none (some "a\u00A0b".toList) false).2 1).mp
      (by decide)⟩

/-- Claim C9 (counterexample): the output of `clean_content` can end with a
newline: with every rule disabled, `"a\n "` cleans to `"a\n"` (the
whitespace-only final line becomes empty and the join re-emits the
separator). -/
theorem c9_counterexample :
    (clean_content tcNoRules "a\n ".toList).getLast? = some '\n' := by decide

/-- Claim C9 (amended): although the output of `clean_content` may itself
end with a newline, an input that ends with a newline is never a fixed
point: for every configuration `clean_content cfg s ≠ s` whenever `s` ends
with `'\n'` (the line passes always consume the final terminator), so
`process_file` never answers `NoChanges` for a file whose content ends in a
newline. -/
theorem c9_amended (cfg : TargetCharacters) (gcfg : GhostScrubConfig)
    (s : List Char) (h : s.getLast? = some '\n') :
    clean_content cfg s ≠ s ∧
    (∀ ext dry v res disk2,
      process_file gcfg ext (some s) dry v = .ok (res, disk2) →
      res ≠ ProcessResult.NoChanges) := by
  constructor
  · intro he
    have hlt := clean_count_lt cfg s h
    rw [he] at hlt
    exact lt_irrefl _ hlt
  · intro ext dry v res disk2 hp hres
    subst hres
    have hlt2 := clean_count_lt gcfg.target_characters s h
    have hne : ¬(s = clean_content gcfg.target_characters s) := by
      intro he
      rw [← he] at hlt2
      exact lt_irrefl _ hlt2
    cases hs : should_process_file gcfg ext with
    | false =>
      have hred : process_file gcfg ext (some s) dry v =
          Except.ok (ProcessResult.Skipped, some s) := by
        unfold process_file
        rw [if_pos (by rw [hs]; rfl)]
      rw [hred] at hp
      injection hp with h1
      injection h1 with h2 h3
      exact ProcessResult.noConfusion h2
    | true =>
      have hred : process_file gcfg ext (some s) dry v =
          if dry then
            Except.ok (ProcessResult.DryRun (count_changes s
              (clean_content gcfg.target_characters s)), some s)
          else
            Except.ok (ProcessResult.Cleaned (count_changes s
              (clean_content gcfg.target_characters s)),
              some (clean_content gcfg.target_characters s)) := by
        unfold process_file
        rw [if_neg (cond_ne_true _ (by rw [hs]; rfl))]
        show (if s = clean_content gcfg.target_characters s then
            Except.ok (ProcessResult.NoChanges, some s)
          else if dry then
            Except.ok (ProcessResult.DryRun (count_changes s
              (clean_content gcfg.target_characters s)), some s)
          else
            Except.ok (ProcessResult.Cleaned (count_changes s
              (clean_content gcfg.target_characters s)),
              some (clean_content gcfg.target_characters s))) = _
        rw [if_neg hne]
      rw [hred] at hp
      split at hp
      · injection hp with h1
        injection h1 with h2 h3
        exact ProcessResult.noConfusion h2
      · injection hp with h1
        injection h1 with h2 h3
        exact ProcessResult.noConfusion h2

/-- Witness for the amended C9: with all rules off, `"a\n"` is not a fixed
point of cleaning. -/
theorem c9_amended_witness :
    clean_content tcNoRules "a\n".toList ≠ "a\n".toList :=
  (c9_amended tcNoRules cfgOpen "a\n".toList (by decide)).1

/-- A walker environment in which no path is a file or directory and every
glob expansion fails with a pattern error. -/
def envGlobSyntaxErr : WalkEnv :=
  ⟨fun _ => false, fun _ => false, fun _ => .ok [], fun _ => .error (),
   fun _ _ _ => .ok ProcessResult.NoChanges, fun _ => none⟩

/-- A walker environment in which no path is a file or directory and every
glob expansion succeeds but yields a single failed entry. -/
def envGlobEntryErr : WalkEnv :=
  ⟨fun _ => false, fun _ => false, fun _ => .ok [], fun _ => .ok [.error ()],
   fun _ _ _ => .ok ProcessResult.NoChanges, fun _ => none⟩

/-- Claim C6 (counterexample): when an input path is neither a file nor a
directory and its interpretation as a glob pattern is malformed, the
`?` on `glob(pattern)` makes `process_paths` abort with an error instead of
counting it in `errors` and continuing. -/
theorem c6_counterexample :
    process_paths envGlobSyntaxErr cfgOpen 1 ["["] false false =
      Except.error () := rfl

/-- Claim C6 (amended): a malformed glob pattern (a failure of
`glob(pattern)` itself) propagates out of `process_glob_pattern` and aborts
`process_paths` with an error; only a failed entry *inside* a successful
glob expansion increments the `errors` counter of `WalkResult` and lets the
walk continue. -/
theorem c6_amended (env : WalkEnv) (cfg : GhostScrubConfig) (fuel : Nat)
    (p : String) (ps : List String) (dry verbose : Bool)
    (hf : env.is_file p = false) (hd : env.is_dir p = false) :
    (env.glob_fn p = .error () →
      process_paths env cfg fuel (p :: ps) dry verbose = Except.error ()) ∧
    (env.glob_fn p = .ok [.error ()] →
      process_paths env cfg fuel [p] dry verbose =
        Except.ok ⟨0, 0, 0, 1⟩) := by
  constructor
  · intro hg
    unfold process_paths
    rw [List.foldlM_cons]
    have hstep : (if env.is_file p then
        pure (process_single_file env p dry verbose WalkResult.dflt)
      else if env.is_dir p then
        walk_directory_recursive env cfg fuel p dry verbose WalkResult.dflt
      else
        process_glob_pattern env cfg fuel p dry verbose WalkResult.dflt) =
        (Except.error () : Except Unit WalkResult) := by
      rw [if_neg (cond_ne_true _ hf), if_neg (cond_ne_true _ hd)]
      unfold process_glob_pattern
      rw [hg]
    rw [hstep]
    rfl
  · intro hg
    unfold process_paths
    rw [List.foldlM_cons]
    have hstep : (if env.is_file p then
        pure (process_single_file env p dry verbose WalkResult.dflt)
      else if env.is_dir p then
        walk_directory_recursive env cfg fuel p dry verbose WalkResult.dflt
      else
        process_glob_pattern env cfg fuel p dry verbose WalkResult.dflt) =
        (Except.ok ⟨0, 0, 0, 1⟩ : Except Unit WalkResult) := by
      rw [if_neg (cond_ne_true _ hf), if_neg (cond_ne_true _ hd)]
      unfold process_glob_pattern
      rw [hg]
      rfl
    rw [hstep]
    rfl

/-- Witness for the amended C6: the two environments above exhibit the
abort and the counted-error outcomes. -/
theorem c6_amended_witness :
    process_paths envGlobSyntaxErr cfgOpen 1 ["x"] false false =
      Except.error () ∧
    process_paths envGlobEntryErr cfgOpen 1 ["x"] false false =
      Except.ok ⟨0, 0, 0, 1⟩ :=
  ⟨(c6_amended envGlobSyntaxErr cfgOpen 1 "x" [] false false rfl rfl).1 rfl,
   (c6_amended envGlobEntryErr cfgOpen 1 "x" [] false false rfl rfl).2 rfl⟩
